import Mathlib

/-!
Shallow embedding of `sklearn_questions.py`: a brute-force k-nearest-neighbor
classifier (`KNearestNeighbors`) and a calendar-month cross-validation
splitter (`MonthlySplit`), together with theorems settling the frozen claims
about them.

Modelling conventions.

* Feature values are rationals.  The source computes
  `np.sqrt(np.sum((x1 - x2)**2))`; since the real square root is strictly
  monotone, every comparison the algorithm performs on distances (argmin,
  global max, equality) gives the same answer on the squared distances, so
  `euclidian_distance` below returns the squared Euclidean distance and stays
  inside `ℚ`.
* A pandas table, as far as `MonthlySplit` is concerned, is its list of rows,
  each carrying the row's index label and the value of the selected time
  source (`X.index` when `time_col = 'index'`, the named column otherwise);
  the selection is pre-applied.  The `isDatetime` flag records whether the
  selected source has a datetime dtype (`pd.api.types.is_datetime64_any_dtype`).
* Python lists are Lean lists; `np.argmin` / `np.argmax` (first occurrence of
  the extremum) are `argminIdx` / `argmaxIdx`; `list.index` / `.index()` is
  `List.indexOf` (first occurrence); `list(set(...))` is `List.dedup`
  (order of the deduplicated list is irrelevant: every result below is
  membership- or sort-normalised); `.sort()` / `sort_values` / `sort_index`
  are `List.insertionSort` (pandas' sort permutes rows into time-ascending
  order; only the permutation property is used).
* A raised `ValueError` is `Except.error`; a generator is the list of the
  values it yields.
-/

/-- A datetime value: the calendar data `MonthlySplit` reads (`.month`,
`.year`) plus a day field so that sorting by time is finer than sorting by
(year, month). -/
structure Timestamp where
  year : ℤ
  month : ℕ
  day : ℕ
deriving DecidableEq

/-- Chronological order on timestamps (lexicographic year, month, day). -/
def tsLe (a b : Timestamp) : Prop :=
  a.year < b.year ∨ (a.year = b.year ∧
    (a.month < b.month ∨ (a.month = b.month ∧ a.day ≤ b.day)))

instance : DecidableRel tsLe := fun a b => by
  unfold tsLe; exact inferInstance

/-- Row order used by `sort_index` / `sort_values`: compare the selected
time-source values. -/
def rowLe {L : Type} (a b : L × Timestamp) : Prop := tsLe a.2 b.2

instance {L : Type} : DecidableRel (@rowLe L) := fun a b => by
  unfold rowLe; exact inferInstance

/-- The input table of `MonthlySplit`: rows in original order, each with its
index label and the selected time-source value, plus the dtype flag of that
source. -/
structure MSTable (L : Type) where
  rows : List (L × Timestamp)
  isDatetime : Bool

/-- The splitter's mutable attribute `self.splits_` (absent before the first
`get_n_splits` call). -/
structure MonthlySplitState where
  splits_ : Option (List (ℕ × ℤ × ℕ × ℤ))
deriving DecidableEq

/-- `list(zip(list(month_data), list(year_data)))`: the (month, year) pair of
every row, in row order. -/
def monthYearPairs {L : Type} (X : MSTable L) : List (ℕ × ℤ) :=
  X.rows.map (fun r => (r.2.month, r.2.year))

/-- `unique_pairs = list(set(m_y_pairs))`. -/
def uniquePairs {L : Type} (X : MSTable L) : List (ℕ × ℤ) :=
  (monthYearPairs X).dedup

/-- The `for month, year in unique_pairs` loop of `get_n_splits`, appending a
`(month, year, month + 1, year)` tuple when the next month of the same year is
present and a `(12, year, 1, year + 1)` tuple for a December whose January is
present. -/
def rawSplits {L : Type} (X : MSTable L) : List (ℕ × ℤ × ℕ × ℤ) :=
  (uniquePairs X).foldl (fun acc p =>
    let acc1 := if (p.1 + 1, p.2) ∈ uniquePairs X then
        acc ++ [(p.1, p.2, p.1 + 1, p.2)] else acc
    if p.1 = 12 ∧ (1, p.2 + 1) ∈ uniquePairs X then
        acc1 ++ [(p.1, p.2, 1, p.2 + 1)] else acc1) []

/-- Python's lexicographic `≤` on the 4-tuples `(train_month, train_year,
test_month, test_year)`, the order used by `split.sort()`. -/
def tupLe (a b : ℕ × ℤ × ℕ × ℤ) : Prop :=
  a.1 < b.1 ∨ (a.1 = b.1 ∧
    (a.2.1 < b.2.1 ∨ (a.2.1 = b.2.1 ∧
      (a.2.2.1 < b.2.2.1 ∨ (a.2.2.1 = b.2.2.1 ∧ a.2.2.2 ≤ b.2.2.2)))))

instance : DecidableRel tupLe := fun a b => by
  unfold tupLe; exact inferInstance

instance : IsTotal (ℕ × ℤ × ℕ × ℤ) tupLe := by
  constructor
  intro a b
  obtain ⟨a1, a2, a3, a4⟩ := a
  obtain ⟨b1, b2, b3, b4⟩ := b
  unfold tupLe
  simp only []
  omega

instance : IsTrans (ℕ × ℤ × ℕ × ℤ) tupLe := by
  constructor
  intro a b c hab hbc
  obtain ⟨a1, a2, a3, a4⟩ := a
  obtain ⟨b1, b2, b3, b4⟩ := b
  obtain ⟨c1, c2, c3, c4⟩ := c
  unfold tupLe at hab hbc ⊢
  simp only [] at hab hbc ⊢
  omega

/-- `split.sort()`: the cached, sorted list of split tuples. -/
def cachedSplits {L : Type} (X : MSTable L) : List (ℕ × ℤ × ℕ × ℤ) :=
  List.insertionSort tupLe (rawSplits X)

/-- `MonthlySplit.get_n_splits`.  Raises when the selected time source is not
datetime-typed; otherwise computes the sorted split tuples, stores them in
`self.splits_` (overwriting whatever state was there) and returns their
number.  `y` and `groups` are the ignored compatibility arguments. -/
def get_n_splits {L : Type} {α : Type u} {β : Type v} (st : MonthlySplitState)
    (X : MSTable L) (y : α) (groups : β) :
    Except String (ℕ × MonthlySplitState) :=
  if X.isDatetime = true then
    Except.ok ((cachedSplits X).length, ⟨some (cachedSplits X)⟩)
  else
    Except.error "Not a datetime column."

/-- `old_order = list(X.index)`. -/
def old_order {L : Type} (X : MSTable L) : List L := X.rows.map Prod.fst

/-- `X.sort_index()` / `X.sort_values(by=time_col)`: the rows reordered
time-ascending. -/
def sortedRows {L : Type} (X : MSTable L) : List (L × Timestamp) :=
  List.insertionSort rowLe X.rows

/-- `map_new2old`: each row's index label mapped to
`old_order.index(label)`, its first positional offset in the original
ordering.  (The Python dict comprehension assigns exactly this value to every
key, so duplicate labels collapse to the first offset.) -/
def map_new2old {L : Type} [DecidableEq L] (X : MSTable L) (lab : L) : ℕ :=
  (old_order X).indexOf lab

/-- One mask-and-resolve step of `MonthlySplit.split`: the rows of the sorted
table whose time has the given month and year (`(MONTH == m) & (YEAR == y)`),
each resolved through `map_new2old` to an original row position. -/
def monthIdx {L : Type} [DecidableEq L] (X : MSTable L) (m : ℕ) (yr : ℤ) :
    List ℕ :=
  ((sortedRows X).filter (fun r => r.2.month == m && r.2.year == yr)).map
    (fun r => map_new2old X r.1)

/-- `MonthlySplit.split`: calls `get_n_splits` (which may raise and which
refreshes `self.splits_`), then yields one `(idx_train, idx_test)` pair per
cached tuple, in cached order. -/
def MonthlySplit.split {L : Type} {α : Type u} {β : Type v} [DecidableEq L]
    (st : MonthlySplitState) (X : MSTable L) (y : α) (groups : β) :
    Except String (List (List ℕ × List ℕ) × MonthlySplitState) :=
  match get_n_splits st X y groups with
  | Except.error e => Except.error e
  | Except.ok (_, st') =>
      Except.ok ((st'.splits_.getD []).map (fun t =>
        (monthIdx X t.1 t.2.1, monthIdx X t.2.2.1 t.2.2.2)), st')

/-- The spec's "immediately following calendar month": same year, or January
of the next year after December. -/
def nextMonth (p : ℕ × ℤ) : ℕ × ℤ :=
  if p.1 = 12 then (1, p.2 + 1) else (p.1 + 1, p.2)

/-- Calendar validity of the datetime data: months lie in 1..12. -/
def validMonths {L : Type} (X : MSTable L) : Prop :=
  ∀ r ∈ X.rows, 1 ≤ r.2.month ∧ r.2.month ≤ 12

/-- The fitted attributes of `KNearestNeighbors`: the constructor parameter
`n_neighbors` plus `examples_`, `labels_` and `classes_` recorded by `fit`. -/
structure KNNModel where
  n_neighbors : ℕ
  examples_ : List (List ℚ)
  labels_ : List ℤ
  classes_ : List ℤ
deriving DecidableEq

/-- `KNearestNeighbors.fit`: records the training data and
`classes_ = list(np.unique(y))` (the distinct labels in ascending order). -/
def fit (n_neighbors : ℕ) (X : List (List ℚ)) (y : List ℤ) : KNNModel :=
  ⟨n_neighbors, X, y, List.insertionSort (· ≤ ·) y.dedup⟩

/-- `euclidian_distance` without the final `np.sqrt`: the squared Euclidean
distance (see the header comment; every comparison the algorithm makes is
invariant under the strictly monotone square root).  `(x1 - x2)**2` is
written as a product so that the definition evaluates by kernel reduction. -/
def euclidian_distance (x1 x2 : List ℚ) : ℚ :=
  ((x1.zip x2).map (fun p => (p.1 - p.2) * (p.1 - p.2))).sum

/-- `compute_distance`: distances from one query point to every stored
example. -/
def compute_distance (m : KNNModel) (x : List ℚ) : List ℚ :=
  m.examples_.map (fun ex => euclidian_distance ex x)

/-- The full `distance_matrix`: one row of distances per query point. -/
def distanceMatrix (m : KNNModel) (X : List (List ℚ)) : List (List ℚ) :=
  X.map (fun x => compute_distance m x)

/-- `np.argmin`: index of the first occurrence of the minimum (0 on the empty
list). -/
def argminIdx : List ℚ → ℕ
  | [] => 0
  | [_] => 0
  | a :: b :: rest =>
      let j := argminIdx (b :: rest)
      if (b :: rest).getD j 0 < a then j + 1 else 0

/-- `np.argmax`: index of the first occurrence of the maximum (0 on the empty
list). -/
def argmaxIdx : List ℕ → ℕ
  | [] => 0
  | [_] => 0
  | a :: b :: rest =>
      let j := argmaxIdx (b :: rest)
      if a < (b :: rest).getD j 0 then j + 1 else 0

/-- Maximum of a list (`np.max`; meaningful on nonempty input). -/
def listMax (l : List ℚ) : ℚ := l.foldl max (l.headD 0)

/-- `MAX = np.max(distance_matrix)`: the maximum over all entries. -/
def matrixMax (M : List (List ℚ)) : ℚ := listMax M.flatten

/-- The `for neighbor in range(self.n_neighbors)` selection loop: at each
step take every row's `np.argmin`, record the array of picks, and overwrite
each row's picked entry with `MAX`. -/
def selectAll (MAX : ℚ) : ℕ → List (List ℚ) → List (List ℕ)
  | 0, _ => []
  | k + 1, M =>
      M.map argminIdx ::
        selectAll MAX k (M.map (fun row => row.set (argminIdx row) MAX))

/-- The same selection restricted to a single row: the matrix loop acts on
each row independently (`selectAll_row` below). -/
def selectK (MAX : ℚ) : ℕ → List ℚ → List ℕ
  | 0, _ => []
  | k + 1, row => argminIdx row :: selectK MAX k (row.set (argminIdx row) MAX)

/-- `NEIGHBORS[0][t], NEIGHBORS[1][t], ...`: the stored-example indices
selected for query row `t`. -/
def neighborsOfRow (m : KNNModel) (X : List (List ℚ)) (t : ℕ) : List ℕ :=
  (selectAll (matrixMax (distanceMatrix m X)) m.n_neighbors
      (distanceMatrix m X)).map (fun picks => picks.getD t 0)

/-- The vote-counting loop: starting from `[0]*len(classes)`, increment
`counts[classes.index(labels_[i])]` for each selected neighbor `i`. -/
def voteCounts (classes : List ℤ) (labels : List ℤ) (nbrs : List ℕ) :
    List ℕ :=
  nbrs.foldl (fun counts n =>
      counts.set (classes.indexOf (labels.getD n 0))
        (counts.getD (classes.indexOf (labels.getD n 0)) 0 + 1))
    (List.replicate classes.length 0)

/-- `KNearestNeighbors.predict`: for each query row, the class of maximal
vote count among the selected neighbors
(`self.classes_[np.argmax(counts)]`). -/
def predict (m : KNNModel) (X : List (List ℚ)) : List ℤ :=
  (List.range X.length).map (fun t =>
    m.classes_.getD
      (argmaxIdx (voteCounts m.classes_ m.labels_ (neighborsOfRow m X t))) 0)

/-- `KNearestNeighbors.score`: `np.sum(y_pred == y) / y.shape[0]`. -/
def score (m : KNNModel) (X : List (List ℚ)) (y : List ℤ) : ℚ :=
  (((predict m X).zip y).countP (fun p => p.1 == p.2) : ℚ) / (y.length : ℚ)

/-! ### Properties of `argminIdx` / `argmaxIdx` -/

theorem argminIdx_spec : ∀ l : List ℚ, l ≠ [] →
    argminIdx l < l.length ∧
    (∀ i, i < l.length → l.getD (argminIdx l) 0 ≤ l.getD i 0) ∧
    (∀ i, i < argminIdx l → l.getD (argminIdx l) 0 < l.getD i 0)
  | [], h => absurd rfl h
  | [a], _ => by
      refine ⟨by simp [argminIdx], ?_, ?_⟩
      · intro i hi
        simp only [List.length_singleton, Nat.lt_one_iff] at hi
        subst hi
        simp [argminIdx]
      · intro i hi
        simp [argminIdx] at hi
  | a :: b :: rest, _ => by
      obtain ⟨ih1, ih2, ih3⟩ := argminIdx_spec (b :: rest) (by simp)
      by_cases h : (b :: rest).getD (argminIdx (b :: rest)) 0 < a
      · have he : argminIdx (a :: b :: rest) = argminIdx (b :: rest) + 1 := by
          show (if (b :: rest).getD (argminIdx (b :: rest)) 0 < a then
              argminIdx (b :: rest) + 1 else 0) = argminIdx (b :: rest) + 1
          rw [if_pos h]
        rw [he]
        refine ⟨by simpa using ih1, ?_, ?_⟩
        · intro i hi
          match i with
          | 0 =>
              rw [List.getD_cons_succ, List.getD_cons_zero]
              exact le_of_lt h
          | i + 1 =>
              simp only [List.getD_cons_succ]
              exact ih2 i (by simpa using hi)
        · intro i hi
          match i with
          | 0 =>
              rw [List.getD_cons_succ, List.getD_cons_zero]
              exact h
          | i + 1 =>
              simp only [List.getD_cons_succ]
              exact ih3 i (by omega)
      · have he : argminIdx (a :: b :: rest) = 0 := by
          show (if (b :: rest).getD (argminIdx (b :: rest)) 0 < a then
              argminIdx (b :: rest) + 1 else 0) = 0
          rw [if_neg h]
        rw [he]
        refine ⟨by simp, ?_, ?_⟩
        · intro i hi
          match i with
          | 0 => simp
          | i + 1 =>
              simp only [List.getD_cons_zero, List.getD_cons_succ]
              exact le_trans (not_lt.mp h) (ih2 i (by simpa using hi))
        · intro i hi
          omega

theorem argminIdx_lt_length {l : List ℚ} (h : l ≠ []) : argminIdx l < l.length :=
  (argminIdx_spec l h).1

theorem argminIdx_le {l : List ℚ} (h : l ≠ []) {i : ℕ} (hi : i < l.length) :
    l.getD (argminIdx l) 0 ≤ l.getD i 0 :=
  (argminIdx_spec l h).2.1 i hi

theorem argminIdx_first {l : List ℚ} (h : l ≠ []) {i : ℕ}
    (hi : i < argminIdx l) : l.getD (argminIdx l) 0 < l.getD i 0 :=
  (argminIdx_spec l h).2.2 i hi

/-- `argminIdx` is characterised as the first position attaining the
minimum. -/
theorem argminIdx_eq_of {l : List ℚ} {j : ℕ} (hj : j < l.length)
    (hmin : ∀ i, i < l.length → l.getD j 0 ≤ l.getD i 0)
    (hfirst : ∀ i, i < j → l.getD j 0 < l.getD i 0) : argminIdx l = j := by
  have hne : l ≠ [] := by
    intro h
    rw [h] at hj
    simp at hj
  rcases Nat.lt_trichotomy (argminIdx l) j with h | h | h
  · exact absurd (argminIdx_le hne hj) (not_le.mpr (hfirst _ h))
  · exact h
  · exact absurd (hmin _ (argminIdx_lt_length hne)) (not_le.mpr (argminIdx_first hne h))

theorem argmaxIdx_spec : ∀ l : List ℕ, l ≠ [] →
    argmaxIdx l < l.length ∧
    (∀ i, i < l.length → l.getD i 0 ≤ l.getD (argmaxIdx l) 0) ∧
    (∀ i, i < argmaxIdx l → l.getD i 0 < l.getD (argmaxIdx l) 0)
  | [], h => absurd rfl h
  | [a], _ => by
      refine ⟨by simp [argmaxIdx], ?_, ?_⟩
      · intro i hi
        simp only [List.length_singleton, Nat.lt_one_iff] at hi
        subst hi
        simp [argmaxIdx]
      · intro i hi
        simp [argmaxIdx] at hi
  | a :: b :: rest, _ => by
      obtain ⟨ih1, ih2, ih3⟩ := argmaxIdx_spec (b :: rest) (by simp)
      by_cases h : a < (b :: rest).getD (argmaxIdx (b :: rest)) 0
      · have he : argmaxIdx (a :: b :: rest) = argmaxIdx (b :: rest) + 1 := by
          show (if a < (b :: rest).getD (argmaxIdx (b :: rest)) 0 then
              argmaxIdx (b :: rest) + 1 else 0) = argmaxIdx (b :: rest) + 1
          rw [if_pos h]
        rw [he]
        refine ⟨by simpa using ih1, ?_, ?_⟩
        · intro i hi
          match i with
          | 0 =>
              rw [List.getD_cons_zero, List.getD_cons_succ]
              exact le_of_lt h
          | i + 1 =>
              simp only [List.getD_cons_succ]
              exact ih2 i (by simpa using hi)
        · intro i hi
          match i with
          | 0 =>
              rw [List.getD_cons_zero, List.getD_cons_succ]
              exact h
          | i + 1 =>
              simp only [List.getD_cons_succ]
              exact ih3 i (by omega)
      · have he : argmaxIdx (a :: b :: rest) = 0 := by
          show (if a < (b :: rest).getD (argmaxIdx (b :: rest)) 0 then
              argmaxIdx (b :: rest) + 1 else 0) = 0
          rw [if_neg h]
        rw [he]
        refine ⟨by simp, ?_, ?_⟩
        · intro i hi
          match i with
          | 0 => simp
          | i + 1 =>
              simp only [List.getD_cons_zero, List.getD_cons_succ]
              exact le_trans (ih2 i (by simpa using hi)) (not_lt.mp h)
        · intro i hi
          omega

theorem argmaxIdx_lt_length {l : List ℕ} (h : l ≠ []) : argmaxIdx l < l.length :=
  (argmaxIdx_spec l h).1

theorem argmaxIdx_ge {l : List ℕ} (h : l ≠ []) {i : ℕ} (hi : i < l.length) :
    l.getD i 0 ≤ l.getD (argmaxIdx l) 0 :=
  (argmaxIdx_spec l h).2.1 i hi

theorem argmaxIdx_first {l : List ℕ} (h : l ≠ []) {i : ℕ}
    (hi : i < argmaxIdx l) : l.getD i 0 < l.getD (argmaxIdx l) 0 :=
  (argmaxIdx_spec l h).2.2 i hi

/-- `argmaxIdx` is characterised as the first position attaining the
maximum. -/
theorem argmaxIdx_eq_of {l : List ℕ} {j : ℕ} (hj : j < l.length)
    (hmax : ∀ i, i < l.length → l.getD i 0 ≤ l.getD j 0)
    (hfirst : ∀ i, i < j → l.getD i 0 < l.getD j 0) : argmaxIdx l = j := by
  have hne : l ≠ [] := by
    intro h
    rw [h] at hj
    simp at hj
  rcases Nat.lt_trichotomy (argmaxIdx l) j with h | h | h
  · exact absurd (argmaxIdx_ge hne hj) (not_le.mpr (hfirst _ h))
  · exact h
  · exact absurd (hmax _ (argmaxIdx_lt_length hne)) (not_le.mpr (argmaxIdx_first hne h))

/-! ### The k-selection loop -/

/-- The matrix selection loop acts independently on each row: reading column
`t` of the successive pick arrays gives exactly the single-row selection on
row `t`. -/
theorem selectAll_row (MAX : ℚ) : ∀ (k : ℕ) (M : List (List ℚ)) (t : ℕ),
    t < M.length →
    (selectAll MAX k M).map (fun picks => picks.getD t 0) =
      selectK MAX k (M.getD t [])
  | 0, _, _, _ => rfl
  | k + 1, M, t, ht => by
      have h1 : (M.map argminIdx).getD t 0 = argminIdx (M.getD t []) := by
        rw [List.getD_eq_getElem _ _ (by simpa using ht),
          List.getD_eq_getElem _ _ ht, List.getElem_map]
      have h2 : (M.map (fun row => row.set (argminIdx row) MAX)).getD t [] =
          (M.getD t []).set (argminIdx (M.getD t [])) MAX := by
        rw [List.getD_eq_getElem _ _ (by simpa using ht),
          List.getD_eq_getElem _ _ ht, List.getElem_map]
      simp only [selectAll, selectK, List.map_cons, h1]
      rw [selectAll_row MAX k _ t (by simpa using ht), h2]

theorem le_foldl_max (l : List ℚ) : ∀ (b : ℚ), b ≤ l.foldl max b ∧
    ∀ x ∈ l, x ≤ l.foldl max b := by
  induction l with
  | nil => intro b; exact ⟨le_refl b, by simp⟩
  | cons a l ih =>
      intro b
      constructor
      · exact le_trans (le_max_left b a) (ih (max b a)).1
      · intro x hx
        rcases List.mem_cons.mp hx with h | h
        · subst h
          exact le_trans (le_max_right b x) (ih (max b x)).1
        · exact (ih (max b a)).2 x h

theorem le_listMax {l : List ℚ} {x : ℚ} (hx : x ∈ l) : x ≤ listMax l :=
  (le_foldl_max l (l.headD 0)).2 x hx

theorem le_matrixMax {M : List (List ℚ)} {row : List ℚ} {x : ℚ}
    (hrow : row ∈ M) (hx : x ∈ row) : x ≤ matrixMax M :=
  le_listMax (List.mem_flatten.mpr ⟨row, hrow, hx⟩)

/-- While a row still has an entry strictly below `MAX`, a position already
holding `MAX` is never selected. -/
theorem selectK_not_mem (MAX : ℚ) : ∀ (k : ℕ) (row : List ℚ) (p : ℕ),
    p < row.length → row.getD p 0 = MAX → (∀ x ∈ row, x ≤ MAX) →
    k ≤ row.countP (fun x => decide (x < MAX)) → p ∉ selectK MAX k row
  | 0, _, _, _, _, _, _ => by simp [selectK]
  | k + 1, row, p, hp, hpv, hub, hk => by
      have hne : row ≠ [] := List.ne_nil_of_length_pos (Nat.zero_lt_of_lt hp)
      have hq : argminIdx row < row.length := argminIdx_lt_length hne
      have hlt : row.getD (argminIdx row) 0 < MAX := by
        have hpos : 0 < row.countP (fun x => decide (x < MAX)) := by omega
        obtain ⟨x, hxmem, hxlt⟩ := List.countP_pos_iff.mp hpos
        obtain ⟨i, hi, hix⟩ := List.mem_iff_getElem.mp hxmem
        calc row.getD (argminIdx row) 0 ≤ row.getD i 0 := argminIdx_le hne hi
          _ = x := by rw [List.getD_eq_getElem _ _ hi, hix]
          _ < MAX := by simpa using hxlt
      have hpq : p ≠ argminIdx row := by
        intro h
        rw [← h, hpv] at hlt
        exact lt_irrefl MAX hlt
      have hcount : row.countP (fun x => decide (x < MAX)) - 1 =
          (row.set (argminIdx row) MAX).countP (fun x => decide (x < MAX)) := by
        rw [List.countP_set _ _ _ _ hq]
        rw [if_pos (by simpa using (List.getD_eq_getElem row 0 hq) ▸ hlt),
          if_neg (by simp)]
        omega
      simp only [selectK, List.mem_cons, not_or]
      refine ⟨fun h => hpq h, ?_⟩
      apply selectK_not_mem MAX k
      · simpa using hp
      · rw [List.getD_eq_getElem _ _ (by simpa using hp),
          List.getElem_set_ne (fun h => hpq h.symm),
          ← List.getD_eq_getElem _ _ hp]
        exact hpv
      · intro x hx
        rcases List.mem_or_eq_of_mem_set hx with h | h
        · exact hub x h
        · exact h.le
      · omega

/-- Under the same side condition the whole selection is duplicate-free. -/
theorem selectK_nodup (MAX : ℚ) : ∀ (k : ℕ) (row : List ℚ),
    (∀ x ∈ row, x ≤ MAX) → k ≤ row.countP (fun x => decide (x < MAX)) →
    (selectK MAX k row).Nodup
  | 0, _, _, _ => by simp [selectK]
  | k + 1, row, hub, hk => by
      have hpos : 0 < row.countP (fun x => decide (x < MAX)) := by omega
      have hne : row ≠ [] := by
        obtain ⟨x, hxmem, _⟩ := List.countP_pos_iff.mp hpos
        exact List.ne_nil_of_mem hxmem
      have hq : argminIdx row < row.length := argminIdx_lt_length hne
      have hlt : row.getD (argminIdx row) 0 < MAX := by
        obtain ⟨x, hxmem, hxlt⟩ := List.countP_pos_iff.mp hpos
        obtain ⟨i, hi, hix⟩ := List.mem_iff_getElem.mp hxmem
        calc row.getD (argminIdx row) 0 ≤ row.getD i 0 := argminIdx_le hne hi
          _ = x := by rw [List.getD_eq_getElem _ _ hi, hix]
          _ < MAX := by simpa using hxlt
      have hcount : row.countP (fun x => decide (x < MAX)) - 1 =
          (row.set (argminIdx row) MAX).countP (fun x => decide (x < MAX)) := by
        rw [List.countP_set _ _ _ _ hq]
        rw [if_pos (by simpa using (List.getD_eq_getElem row 0 hq) ▸ hlt),
          if_neg (by simp)]
        omega
      have hub' : ∀ x ∈ row.set (argminIdx row) MAX, x ≤ MAX := by
        intro x hx
        rcases List.mem_or_eq_of_mem_set hx with h | h
        · exact hub x h
        · exact h.le
      simp only [selectK, List.nodup_cons]
      constructor
      · apply selectK_not_mem MAX k
        · simpa using hq
        · rw [List.getD_eq_getElem _ _ (by simpa using hq)]
          simp
        · exact hub'
        · omega
      · exact selectK_nodup MAX k _ hub' (by omega)

/-! ### Vote counting, `fit`, distances -/

theorem getD_mem_of_lt {α : Type} {l : List α} {n : ℕ} {d : α}
    (h : n < l.length) : l.getD n d ∈ l := by
  rw [List.getD_eq_getElem _ _ h]
  exact List.getElem_mem h

theorem voteCounts_foldl_length (classes labels : List ℤ) :
    ∀ (nbrs : List ℕ) (counts : List ℕ),
    (nbrs.foldl (fun counts n =>
        counts.set (classes.indexOf (labels.getD n 0))
          (counts.getD (classes.indexOf (labels.getD n 0)) 0 + 1))
      counts).length = counts.length
  | [], _ => rfl
  | n :: nbrs, counts => by
      rw [List.foldl_cons, voteCounts_foldl_length classes labels nbrs,
        List.length_set]

theorem voteCounts_length (classes labels : List ℤ) (nbrs : List ℕ) :
    (voteCounts classes labels nbrs).length = classes.length := by
  unfold voteCounts
  rw [voteCounts_foldl_length, List.length_replicate]

/-- The incrementing fold really counts: entry `i` of the final counts array
exceeds entry `i` of the initial one by the number of neighbors whose label's
class index is `i`. -/
theorem voteCounts_foldl_getD (classes labels : List ℤ) :
    ∀ (nbrs : List ℕ) (counts : List ℕ) (i : ℕ), i < counts.length →
    (∀ n ∈ nbrs, classes.indexOf (labels.getD n 0) < counts.length) →
    (nbrs.foldl (fun counts n =>
        counts.set (classes.indexOf (labels.getD n 0))
          (counts.getD (classes.indexOf (labels.getD n 0)) 0 + 1))
      counts).getD i 0 =
      counts.getD i 0 +
        nbrs.countP (fun n => classes.indexOf (labels.getD n 0) == i)
  | [], _, _, _, _ => by simp
  | n :: nbrs, counts, i, hi, hidx => by
      rw [List.foldl_cons]
      have hc : classes.indexOf (labels.getD n 0) < counts.length :=
        hidx n (List.mem_cons_self n nbrs)
      rw [voteCounts_foldl_getD classes labels nbrs _ i
        (by rw [List.length_set]; exact hi)
        (fun n' hn' => by rw [List.length_set]; exact hidx n' (List.mem_cons_of_mem n hn'))]
      rw [List.countP_cons]
      by_cases h : classes.indexOf (labels.getD n 0) = i
      · have hset : (counts.set (classes.indexOf (labels.getD n 0))
            (counts.getD (classes.indexOf (labels.getD n 0)) 0 + 1)).getD i 0 =
            counts.getD i 0 + 1 := by
          rw [h, List.getD_eq_getElem _ _ (by rw [List.length_set]; exact hi),
            List.getElem_set_self (by simpa using hi)]
        rw [hset, if_pos (by simpa using h)]
        omega
      · have hset : (counts.set (classes.indexOf (labels.getD n 0))
            (counts.getD (classes.indexOf (labels.getD n 0)) 0 + 1)).getD i 0 =
            counts.getD i 0 := by
          rw [List.getD_eq_getElem _ _ (by rw [List.length_set]; exact hi),
            List.getElem_set_ne h, List.getD_eq_getElem _ _ hi]
        rw [hset, if_neg (by simpa using h)]
        omega

theorem voteCounts_getD (classes labels : List ℤ) (nbrs : List ℕ) (i : ℕ)
    (hi : i < classes.length)
    (hidx : ∀ n ∈ nbrs, classes.indexOf (labels.getD n 0) < classes.length) :
    (voteCounts classes labels nbrs).getD i 0 =
      nbrs.countP (fun n => classes.indexOf (labels.getD n 0) == i) := by
  unfold voteCounts
  rw [voteCounts_foldl_getD classes labels nbrs _ i
    (by rw [List.length_replicate]; exact hi)
    (fun n hn => by rw [List.length_replicate]; exact hidx n hn)]
  rw [List.getD_eq_getElem _ _ (by simpa using hi), List.getElem_replicate]
  omega

/-- `classes_` recorded by `fit` has the same members as the training
labels. -/
theorem mem_fit_classes {k : ℕ} {X : List (List ℚ)} {y : List ℤ} {a : ℤ} :
    a ∈ (fit k X y).classes_ ↔ a ∈ y := by
  unfold fit
  rw [List.mem_insertionSort, List.mem_dedup]

/-- `classes_` recorded by `fit` is ascending (the order of `np.unique`). -/
theorem fit_classes_sorted (k : ℕ) (X : List (List ℚ)) (y : List ℤ) :
    List.Sorted (· ≤ ·) (fit k X y).classes_ :=
  List.sorted_insertionSort (· ≤ ·) y.dedup

theorem fit_classes_nodup (k : ℕ) (X : List (List ℚ)) (y : List ℤ) :
    (fit k X y).classes_.Nodup :=
  ((List.perm_insertionSort (· ≤ ·) y.dedup).nodup_iff).mpr y.nodup_dedup

theorem euclidian_distance_nonneg (x1 x2 : List ℚ) :
    0 ≤ euclidian_distance x1 x2 := by
  unfold euclidian_distance
  apply List.sum_nonneg
  intro x hx
  obtain ⟨p, _, hp⟩ := List.mem_map.mp hx
  rw [← hp]
  exact mul_self_nonneg _

theorem euclidian_distance_self (x : List ℚ) : euclidian_distance x x = 0 := by
  unfold euclidian_distance
  induction x with
  | nil => rfl
  | cons a l ih =>
      rw [List.zip_cons_cons, List.map_cons, List.sum_cons]
      rw [ih]
      ring

theorem euclidian_distance_eq_zero_iff : ∀ (x1 x2 : List ℚ),
    x1.length = x2.length → (euclidian_distance x1 x2 = 0 ↔ x1 = x2)
  | [], [], _ => by simp [euclidian_distance]
  | [], _ :: _, h => by simp at h
  | _ :: _, [], h => by simp at h
  | a :: l1, b :: l2, h => by
      have hlen : l1.length = l2.length := by simpa using h
      unfold euclidian_distance
      rw [List.zip_cons_cons, List.map_cons, List.sum_cons]
      constructor
      · intro h0
        have h1 : (0:ℚ) ≤ (a - b) * (a - b) := mul_self_nonneg _
        have h2 : (0:ℚ) ≤
            ((l1.zip l2).map (fun p => (p.1 - p.2) * (p.1 - p.2))).sum :=
          euclidian_distance_nonneg l1 l2
        have hab : (a - b) * (a - b) = 0 := by linarith
        have htl : euclidian_distance l1 l2 = 0 := by
          unfold euclidian_distance
          linarith
        have hab' : a = b := sub_eq_zero.mp (mul_self_eq_zero.mp hab)
        rw [hab', (euclidian_distance_eq_zero_iff l1 l2 hlen).mp htl]
      · intro he
        injection he with h1 h2
        subst h1
        subst h2
        have := euclidian_distance_self (a :: l1)
        unfold euclidian_distance at this
        rw [List.zip_cons_cons, List.map_cons, List.sum_cons] at this
        exact this

/-! ### `predict` plumbing -/

theorem distanceMatrix_getD (m : KNNModel) (X : List (List ℚ)) {t : ℕ}
    (ht : t < X.length) :
    (distanceMatrix m X).getD t [] = compute_distance m (X.getD t []) := by
  unfold distanceMatrix
  rw [List.getD_eq_getElem _ _ (by simpa using ht), List.getElem_map,
    List.getD_eq_getElem _ _ ht]

theorem neighborsOfRow_eq_selectK (m : KNNModel) (X : List (List ℚ)) (t : ℕ)
    (ht : t < X.length) :
    neighborsOfRow m X t = selectK (matrixMax (distanceMatrix m X))
      m.n_neighbors (compute_distance m (X.getD t [])) := by
  unfold neighborsOfRow
  rw [selectAll_row _ _ _ t (by simpa [distanceMatrix] using ht),
    distanceMatrix_getD m X ht]

theorem predict_length (m : KNNModel) (X : List (List ℚ)) :
    (predict m X).length = X.length := by
  simp [predict]

theorem predict_getD (m : KNNModel) (X : List (List ℚ)) (t : ℕ)
    (ht : t < X.length) :
    (predict m X).getD t 0 = m.classes_.getD
      (argmaxIdx (voteCounts m.classes_ m.labels_ (neighborsOfRow m X t))) 0 := by
  unfold predict
  rw [List.getD_eq_getElem _ _ (by simpa using ht), List.getElem_map,
    List.getElem_range]

/-- With a query equal to training row `j` and no earlier training row equal
to it, the argmin of the distance vector is exactly `j` (the zero
self-distance dominates, first occurrence wins). -/
theorem argmin_compute_distance (X : List (List ℚ)) (q : List ℚ) (j : ℕ)
    (hj : j < X.length) (heq : X.getD j [] = q)
    (hrect : ∀ r ∈ X, r.length = q.length)
    (hfirst : ∀ i, i < j → X.getD i [] ≠ q) :
    argminIdx (X.map (fun ex => euclidian_distance ex q)) = j := by
  have hgetD : ∀ i, i < X.length →
      (X.map (fun ex => euclidian_distance ex q)).getD i 0 =
        euclidian_distance (X.getD i []) q := by
    intro i hi
    rw [List.getD_eq_getElem _ _ (by simpa using hi), List.getElem_map,
      List.getD_eq_getElem _ _ hi]
  apply argminIdx_eq_of (by simpa using hj)
  · intro i hi
    have hi' : i < X.length := by simpa using hi
    rw [hgetD j hj, hgetD i hi', heq, euclidian_distance_self]
    exact euclidian_distance_nonneg _ _
  · intro i hij
    have hi' : i < X.length := lt_trans hij hj
    rw [hgetD j hj, hgetD i hi', heq, euclidian_distance_self]
    rcases lt_or_eq_of_le (euclidian_distance_nonneg (X.getD i []) q) with h | h
    · exact h
    · exfalso
      apply hfirst i hij
      exact (euclidian_distance_eq_zero_iff _ _
        (hrect _ (getD_mem_of_lt hi'))).mp h.symm

theorem getD_replicate_zero (n c : ℕ) :
    (List.replicate n (0 : ℕ)).getD c 0 = 0 := by
  rcases lt_or_ge c n with h | h
  · rw [List.getD_eq_getElem _ _ (by simpa using h), List.getElem_replicate]
  · rw [List.getD_eq_default _ _ (by simpa using h)]

/-- One neighbor's vote: the counts array is all zeros except a single `1` at
the voted class index. -/
theorem voteCounts_single (classes labels : List ℤ) (j : ℕ) :
    voteCounts classes labels [j] =
      (List.replicate classes.length 0).set
        (classes.indexOf (labels.getD j 0)) 1 := by
  unfold voteCounts
  rw [List.foldl_cons, List.foldl_nil, getD_replicate_zero]

theorem argmax_replicate_set (n c : ℕ) (hc : c < n) :
    argmaxIdx ((List.replicate n (0 : ℕ)).set c 1) = c := by
  have hlen : ((List.replicate n (0 : ℕ)).set c 1).length = n := by
    rw [List.length_set, List.length_replicate]
  have hgetD : ∀ i, i < n → ((List.replicate n (0 : ℕ)).set c 1).getD i 0 =
      if c = i then 1 else 0 := by
    intro i hi
    by_cases h : c = i
    · subst h
      rw [if_pos rfl, List.getD_eq_getElem _ _ (by rw [hlen]; exact hi),
        List.getElem_set_self (by rw [hlen]; exact hi)]
    · rw [if_neg h, List.getD_eq_getElem _ _ (by rw [hlen]; exact hi),
        List.getElem_set_ne h, List.getElem_replicate]
  apply argmaxIdx_eq_of (by rw [hlen]; exact hc)
  · intro i hi
    have hi' : i < n := by rw [hlen] at hi; exact hi
    rw [hgetD i hi', hgetD c hc, if_pos rfl]
    by_cases h : c = i
    · rw [if_pos h]
    · rw [if_neg h]
      omega
  · intro i hic
    rw [hgetD i (lt_trans hic hc), hgetD c hc, if_pos rfl,
      if_neg (fun h => absurd h (by omega))]
    omega

/-- Core of the `k = 1` behaviour: when query row `t` equals training row `j`
and no earlier training row equals it, the prediction for row `t` is
`labels[j]`. -/
theorem predict_k1_train (X : List (List ℚ)) (y : List ℤ) (Q : List (List ℚ))
    (t j : ℕ) (hlen : X.length = y.length) (ht : t < Q.length)
    (hj : j < X.length) (heq : X.getD j [] = Q.getD t [])
    (hrect : ∀ r ∈ X, r.length = (Q.getD t []).length)
    (hfirst : ∀ i, i < j → X.getD i [] ≠ Q.getD t []) :
    (predict (fit 1 X y) Q).getD t 0 = y.getD j 0 := by
  have hk : (fit 1 X y).n_neighbors = 1 := rfl
  have hex : (fit 1 X y).examples_ = X := rfl
  have hlab : (fit 1 X y).labels_ = y := rfl
  rw [predict_getD _ _ _ ht, neighborsOfRow_eq_selectK _ _ _ ht, hk]
  have hargmin : argminIdx (compute_distance (fit 1 X y) (Q.getD t [])) = j := by
    unfold compute_distance
    rw [hex]
    exact argmin_compute_distance X (Q.getD t []) j hj heq hrect hfirst
  have hsel : selectK (matrixMax (distanceMatrix (fit 1 X y) Q)) 1
      (compute_distance (fit 1 X y) (Q.getD t [])) =
      [argminIdx (compute_distance (fit 1 X y) (Q.getD t []))] := rfl
  rw [hsel, hargmin, hlab, voteCounts_single]
  have hyj : y.getD j 0 ∈ (fit 1 X y).classes_ :=
    mem_fit_classes.mpr (getD_mem_of_lt (hlen ▸ hj))
  have hc : (fit 1 X y).classes_.indexOf (y.getD j 0) <
      (fit 1 X y).classes_.length := List.indexOf_lt_length.mpr hyj
  rw [argmax_replicate_set _ _ hc, List.getD_eq_getElem _ _ hc]
  exact List.getElem_indexOf hc

/-! ### Remaining KNN helper lemmas -/

/-- Predicting the training set itself with `k = 1` returns the labels,
provided rows with equal features carry equal labels. -/
theorem predict_fit1_self (X : List (List ℚ)) (y : List ℤ)
    (hlen : X.length = y.length)
    (hrect : ∀ r ∈ X, ∀ r' ∈ X, r.length = r'.length)
    (hlab : ∀ i j, i < X.length → j < X.length →
      X.getD i [] = X.getD j [] → y.getD i 0 = y.getD j 0) :
    predict (fit 1 X y) X = y := by
  apply List.ext_getElem (by rw [predict_length]; exact hlen)
  intro i h1 h2
  have hiX : i < X.length := by rw [predict_length] at h1; exact h1
  have hmem : X.getD i [] ∈ X := getD_mem_of_lt hiX
  have hex : ∃ j, j < X.length ∧ X.getD j [] = X.getD i [] := ⟨i, hiX, rfl⟩
  obtain ⟨hjlt, hXj⟩ := Nat.find_spec hex
  have hfind : Nat.find hex ≤ i := Nat.find_le ⟨hiX, rfl⟩
  have hfirst : ∀ i', i' < Nat.find hex → X.getD i' [] ≠ X.getD i [] := by
    intro i' hi' hcontra
    exact Nat.find_min hex hi'
      ⟨lt_of_lt_of_le hi' (le_trans hfind (le_of_lt hiX)), hcontra⟩
  have hpred : (predict (fit 1 X y) X).getD i 0 = y.getD (Nat.find hex) 0 :=
    predict_k1_train X y X i (Nat.find hex) hlen hiX hjlt hXj
      (fun r hr => hrect r hr _ hmem) hfirst
  have hlabeq : y.getD (Nat.find hex) 0 = y.getD i 0 :=
    hlab _ _ hjlt hiX hXj
  rw [← List.getD_eq_getElem (predict (fit 1 X y) X) 0 h1,
    ← List.getD_eq_getElem y 0 h2, hpred, hlabeq]

theorem countP_zip_self (y : List ℤ) :
    (y.zip y).countP (fun p => p.1 == p.2) = y.length := by
  induction y with
  | nil => rfl
  | cons a l ih =>
      rw [List.zip_cons_cons, List.countP_cons, ih]
      simp

/-! ### Claim C1 -/

/-- **C1, amended.**  For every model and query row `t`, the k-selection loop
picks `n_neighbors` pairwise-distinct stored-example indices *provided* the
row's distance list has at least `n_neighbors` entries strictly below the
maximum of the full distance matrix: overwriting a selected position with
that maximum prevents its re-selection as long as the row retains an entry
strictly below the maximum.  (Without the proviso a position can be
re-selected; see the counterexample.) -/
theorem C1_kselection_distinct (m : KNNModel) (X : List (List ℚ)) (t : ℕ)
    (ht : t < X.length)
    (hc : m.n_neighbors ≤ ((distanceMatrix m X).getD t []).countP
      (fun d => decide (d < matrixMax (distanceMatrix m X)))) :
    (neighborsOfRow m X t).Nodup := by
  have hM : t < (distanceMatrix m X).length := by
    simpa [distanceMatrix] using ht
  unfold neighborsOfRow
  rw [selectAll_row _ _ _ t hM]
  apply selectK_nodup
  · intro x hx
    rw [List.getD_eq_getElem _ _ hM] at hx
    exact le_matrixMax (List.getElem_mem hM) hx
  · exact hc

/-- Witness for C1: three stored examples at distances 0, 1, 25 from the
query; two entries lie strictly below the matrix maximum 25, so the two
selected indices are distinct. -/
theorem C1_kselection_distinct_witness :
    (fit 2 [[(0:ℚ)], [1], [5]] [0, 1, 2]).n_neighbors ≤
      ((distanceMatrix (fit 2 [[(0:ℚ)], [1], [5]] [0, 1, 2]) [[0]]).getD 0 []).countP
        (fun d => decide (d < matrixMax
          (distanceMatrix (fit 2 [[(0:ℚ)], [1], [5]] [0, 1, 2]) [[0]]))) ∧
    (neighborsOfRow (fit 2 [[(0:ℚ)], [1], [5]] [0, 1, 2]) [[0]] 0).Nodup :=
  ⟨by with_unfolding_all exact of_decide_eq_true rfl,
   C1_kselection_distinct _ _ 0 (by decide)
     (by with_unfolding_all exact of_decide_eq_true rfl)⟩

/-- **C1 as stated is false.**  Fit with two identical training points
`[0], [0]` (labels 0, 1) and predict on `[0]` with `n_neighbors = 2`: every
distance is 0, so the matrix maximum is 0, overwriting changes nothing, and
`np.argmin` selects stored index 0 in both iterations — the selected indices
are `[0, 0]`, not distinct. -/
theorem C1_reselection_counterexample :
    ¬ (neighborsOfRow (fit 2 [[(0:ℚ)], [0]] [0, 1]) [[0]] 0).Nodup := by
  with_unfolding_all exact of_decide_eq_false rfl

/-! ### Claim C4 -/

/-- **C4, amended.**  For a model fitted with `n_neighbors = 1`, predicting
on the single training row `X[j]` returns `y[j]` *provided no earlier
training row has the same features as `X[j]`* (on exact distance ties
`np.argmin` returns the earliest index, so an earlier duplicate row wins;
see the counterexample). -/
theorem C4_k1_train_prediction (X : List (List ℚ)) (y : List ℤ) (j : ℕ)
    (hlen : X.length = y.length) (hj : j < X.length)
    (hrect : ∀ r ∈ X, r.length = (X.getD j []).length)
    (hdup : ∀ i, i < j → X.getD i [] ≠ X.getD j []) :
    predict (fit 1 X y) [X.getD j []] = [y.getD j 0] := by
  have hg : (predict (fit 1 X y) [X.getD j []]).getD 0 0 = y.getD j 0 := by
    apply predict_k1_train X y [X.getD j []] 0 j hlen (by simp) hj rfl
    · exact hrect
    · exact hdup
  have h0 : (predict (fit 1 X y) [X.getD j []]).length = 1 := by
    rw [predict_length]
    rfl
  obtain ⟨a, ha⟩ := List.length_eq_one.mp h0
  rw [ha] at hg ⊢
  rw [List.getD_cons_zero] at hg
  rw [hg]

/-- Witness for C4: training rows `[0], [3]` (labels 10, 20), `j = 1`. -/
theorem C4_k1_train_prediction_witness :
    (∀ i, i < 1 → [[(0:ℚ)], [3]].getD i [] ≠ [[(0:ℚ)], [3]].getD 1 []) ∧
    predict (fit 1 [[(0:ℚ)], [3]] [10, 20]) [[[(0:ℚ)], [3]].getD 1 []] =
      [[(10:ℤ), 20].getD 1 0] :=
  ⟨fun i hi => by
      have hi0 : i = 0 := by omega
      subst hi0
      decide,
   C4_k1_train_prediction [[(0:ℚ)], [3]] [10, 20] 1 rfl (by decide)
     (by decide)
     (fun i hi => by
        have hi0 : i = 0 := by omega
        subst hi0
        decide)⟩

/-- **C4 as stated is false.**  With training rows `[0], [0]` and labels
`0, 1`, predicting on training row `X[1] = [0]` with `k = 1` returns
`y[0] = 0`, not `y[1] = 1`: the self-distance 0 ties with the distance to
the earlier identical row and `np.argmin` returns the first index. -/
theorem C4_duplicate_row_counterexample :
    predict (fit 1 [[(0:ℚ)], [0]] [0, 1]) [[[(0:ℚ)], [0]].getD 1 []] ≠
      [[(0:ℤ), 1].getD 1 0] := by
  with_unfolding_all exact of_decide_eq_false rfl

/-! ### Claim C5 -/

/-- **C5.**  For every query row `t`, the returned label is
`classes_[argmax(counts)]` where `counts` are exactly the per-class vote
tallies of the selected neighbors, the vote count at the argmax position is
maximal, every strictly earlier class has a strictly smaller count (so vote
ties are broken toward the class appearing earliest in `classes_`), and the
`classes_` sequence produced by `fit` is ascending and duplicate-free.  The
hypothesis `hidx` states that every selected neighbor's label occurs in
`classes_` (guaranteed for fitted models, where `classes_` is the set of
training labels; in Python a missing label would raise `ValueError` in
`list.index`). -/
theorem C5_majority_vote_first_argmax (m : KNNModel) (X : List (List ℚ))
    (t : ℕ) (ht : t < X.length) (hcls : m.classes_ ≠ [])
    (hidx : ∀ n ∈ neighborsOfRow m X t, m.labels_.getD n 0 ∈ m.classes_) :
    (predict m X).getD t 0 = m.classes_.getD
      (argmaxIdx (voteCounts m.classes_ m.labels_ (neighborsOfRow m X t))) 0 ∧
    (∀ i, i < m.classes_.length →
      (voteCounts m.classes_ m.labels_ (neighborsOfRow m X t)).getD i 0 =
        (neighborsOfRow m X t).countP
          (fun n => m.classes_.indexOf (m.labels_.getD n 0) == i)) ∧
    (∀ i, i < m.classes_.length →
      (voteCounts m.classes_ m.labels_ (neighborsOfRow m X t)).getD i 0 ≤
        (voteCounts m.classes_ m.labels_ (neighborsOfRow m X t)).getD
          (argmaxIdx (voteCounts m.classes_ m.labels_ (neighborsOfRow m X t))) 0) ∧
    (∀ i, i < argmaxIdx (voteCounts m.classes_ m.labels_ (neighborsOfRow m X t)) →
      (voteCounts m.classes_ m.labels_ (neighborsOfRow m X t)).getD i 0 <
        (voteCounts m.classes_ m.labels_ (neighborsOfRow m X t)).getD
          (argmaxIdx (voteCounts m.classes_ m.labels_ (neighborsOfRow m X t))) 0) ∧
    (∀ (k : ℕ) (X0 : List (List ℚ)) (y0 : List ℤ),
      List.Sorted (· ≤ ·) (fit k X0 y0).classes_ ∧ (fit k X0 y0).classes_.Nodup) := by
  have hvne : voteCounts m.classes_ m.labels_ (neighborsOfRow m X t) ≠ [] := by
    intro h
    apply hcls
    have := voteCounts_length m.classes_ m.labels_ (neighborsOfRow m X t)
    rw [h] at this
    exact List.length_eq_zero.mp this.symm
  refine ⟨predict_getD m X t ht, ?_, ?_, ?_, ?_⟩
  · intro i hi
    exact voteCounts_getD m.classes_ m.labels_ (neighborsOfRow m X t) i hi
      (fun n hn => List.indexOf_lt_length.mpr (hidx n hn))
  · intro i hi
    exact argmaxIdx_ge hvne
      (by rw [voteCounts_length]; exact hi)
  · intro i hi
    exact argmaxIdx_first hvne hi
  · intro k X0 y0
    exact ⟨fit_classes_sorted k X0 y0, fit_classes_nodup k X0 y0⟩

/-- Witness for C5: two neighbors with one vote each for classes 3 and 7;
the tie is broken toward class 3, the earlier entry of the ascending
`classes_ = [3, 7]`. -/
theorem C5_majority_vote_witness :
    (fit 2 [[(0:ℚ)], [1], [10]] [3, 7, 3]).classes_ ≠ [] ∧
    (predict (fit 2 [[(0:ℚ)], [1], [10]] [3, 7, 3]) [[0]]).getD 0 0 =
      (fit 2 [[(0:ℚ)], [1], [10]] [3, 7, 3]).classes_.getD
        (argmaxIdx (voteCounts (fit 2 [[(0:ℚ)], [1], [10]] [3, 7, 3]).classes_
          (fit 2 [[(0:ℚ)], [1], [10]] [3, 7, 3]).labels_
          (neighborsOfRow (fit 2 [[(0:ℚ)], [1], [10]] [3, 7, 3]) [[0]] 0))) 0 :=
  ⟨by decide,
   (C5_majority_vote_first_argmax (fit 2 [[(0:ℚ)], [1], [10]] [3, 7, 3])
      [[0]] 0 (by decide) (by decide)
      (by with_unfolding_all exact of_decide_eq_true rfl)).1⟩

/-! ### Claim C6 -/

/-- **C6, amended.**  `score` always lies in `[0, 1]`; and with
`n_neighbors = 1` it equals 1 on the (nonempty, rectangular) training set
*provided equal feature rows carry equal labels* (with contradictorily
labelled duplicate rows the earlier label wins and the score drops below 1;
see the counterexample). -/
theorem C6_score_bounds_and_perfect_training :
    (∀ (m : KNNModel) (X : List (List ℚ)) (y : List ℤ),
      0 ≤ score m X y ∧ score m X y ≤ 1) ∧
    (∀ (X : List (List ℚ)) (y : List ℤ),
      X.length = y.length → y ≠ [] →
      (∀ r ∈ X, ∀ r' ∈ X, r.length = r'.length) →
      (∀ i j, i < X.length → j < X.length → X.getD i [] = X.getD j [] →
        y.getD i 0 = y.getD j 0) →
      score (fit 1 X y) X y = 1) := by
  constructor
  · intro m X y
    have hcle : ((predict m X).zip y).countP (fun p => p.1 == p.2) ≤
        y.length := by
      calc ((predict m X).zip y).countP (fun p => p.1 == p.2)
          ≤ ((predict m X).zip y).length := List.countP_le_length _
        _ ≤ y.length := by rw [List.length_zip]; omega
    constructor
    · unfold score
      positivity
    · unfold score
      apply div_le_one_of_le
      · exact_mod_cast hcle
      · positivity
  · intro X y hlen hne hrect hlab
    unfold score
    rw [predict_fit1_self X y hlen hrect hlab, countP_zip_self]
    exact div_self (Nat.cast_ne_zero.mpr
      (fun h => hne (List.length_eq_zero.mp h)))

/-- Witness for C6: a singleton training set scores exactly 1 with
`k = 1`. -/
theorem C6_score_witness :
    ([(5:ℤ)] : List ℤ) ≠ [] ∧
    score (fit 1 [[(0:ℚ)]] [(5:ℤ)]) [[(0:ℚ)]] [(5:ℤ)] = 1 :=
  ⟨by decide,
   C6_score_bounds_and_perfect_training.2 [[(0:ℚ)]] [(5:ℤ)] rfl (by decide)
     (by
        intro r hr r' hr'
        rw [List.mem_singleton.mp hr, List.mem_singleton.mp hr'])
     (by
        intro i j hi hj h
        have hi0 : i = 0 := by simpa using hi
        have hj0 : j = 0 := by simpa using hj
        rw [hi0, hj0])⟩

/-- **The training-set part of C6 as stated is false.**  With duplicate
training rows `[0], [0]` labelled `0, 1` and `k = 1`, both rows predict the
first label 0, so the training score is 1/2, not 1. -/
theorem C6_score_counterexample :
    score (fit 1 [[(0:ℚ)], [0]] [0, 1]) [[0], [0]] [0, 1] ≠ 1 := by
  with_unfolding_all exact of_decide_eq_false rfl

/-! ### MonthlySplit lemmas -/

/-- The tuples that one `(month, year)` pair contributes inside the
`rawSplits` loop. -/
def emitTuples (pairs : List (ℕ × ℤ)) (p : ℕ × ℤ) : List (ℕ × ℤ × ℕ × ℤ) :=
  (if (p.1 + 1, p.2) ∈ pairs then [(p.1, p.2, p.1 + 1, p.2)] else []) ++
  (if p.1 = 12 ∧ (1, p.2 + 1) ∈ pairs then [(p.1, p.2, 1, p.2 + 1)] else [])

theorem rawSplits_step {L : Type} (X : MSTable L)
    (init : List (ℕ × ℤ × ℕ × ℤ)) (q : ℕ × ℤ) :
    (let acc1 := if (q.1 + 1, q.2) ∈ uniquePairs X then
        init ++ [(q.1, q.2, q.1 + 1, q.2)] else init
     if q.1 = 12 ∧ (1, q.2 + 1) ∈ uniquePairs X then
        acc1 ++ [(q.1, q.2, 1, q.2 + 1)] else acc1) =
    init ++ emitTuples (uniquePairs X) q := by
  obtain ⟨pm, py⟩ := q
  by_cases h1 : (pm + 1, py) ∈ uniquePairs X <;>
    by_cases h2 : pm = 12 ∧ (1, py + 1) ∈ uniquePairs X
  · obtain ⟨h2a, h2b⟩ := h2
    subst h2a
    simp [emitTuples, h1, h2b]
  · simp [emitTuples, h1, h2]
  · obtain ⟨h2a, h2b⟩ := h2
    subst h2a
    simp [emitTuples, h1, h2b]
  · simp [emitTuples, h1, h2]

theorem rawSplits_eq_flatMap {L : Type} (X : MSTable L) :
    rawSplits X = (uniquePairs X).flatMap (emitTuples (uniquePairs X)) := by
  unfold rawSplits
  have key : ∀ (l : List (ℕ × ℤ)) (init : List (ℕ × ℤ × ℕ × ℤ)),
      l.foldl (fun acc p =>
        let acc1 := if (p.1 + 1, p.2) ∈ uniquePairs X then
            acc ++ [(p.1, p.2, p.1 + 1, p.2)] else acc
        if p.1 = 12 ∧ (1, p.2 + 1) ∈ uniquePairs X then
            acc1 ++ [(p.1, p.2, 1, p.2 + 1)] else acc1) init =
      init ++ l.flatMap (emitTuples (uniquePairs X)) := by
    intro l
    induction l with
    | nil => intro init; simp
    | cons p l ih =>
        intro init
        rw [List.foldl_cons, rawSplits_step X init p, ih, List.flatMap_cons,
          List.append_assoc]
  simpa using key (uniquePairs X) []

theorem length_emitTuples {L : Type} (X : MSTable L)
    (hall : ∀ q ∈ uniquePairs X, q.1 ≤ 12) (p : ℕ × ℤ) :
    (emitTuples (uniquePairs X) p).length =
      if nextMonth p ∈ uniquePairs X then 1 else 0 := by
  unfold emitTuples nextMonth
  by_cases h12 : p.1 = 12
  · have hn : (p.1 + 1, p.2) ∉ uniquePairs X := by
      intro h
      have h' : p.1 + 1 ≤ 12 := hall _ h
      omega
    rw [if_neg hn, if_pos h12, List.nil_append]
    by_cases hj : (1, p.2 + 1) ∈ uniquePairs X
    · have hc : p.1 = 12 ∧ (1, p.2 + 1) ∈ uniquePairs X := ⟨h12, hj⟩
      rw [if_pos hc, if_pos hj]
      rfl
    · have hc : ¬(p.1 = 12 ∧ (1, p.2 + 1) ∈ uniquePairs X) := fun h => hj h.2
      rw [if_neg hc, if_neg hj]
      rfl
  · have hc : ¬(p.1 = 12 ∧ (1, p.2 + 1) ∈ uniquePairs X) := fun h => h12 h.1
    rw [if_neg hc, if_neg h12]
    by_cases hj : (p.1 + 1, p.2) ∈ uniquePairs X
    · rw [if_pos hj, if_pos hj]
      rfl
    · rw [if_neg hj, if_neg hj]
      rfl

theorem length_rawSplits {L : Type} (X : MSTable L)
    (hall : ∀ q ∈ uniquePairs X, q.1 ≤ 12) :
    (rawSplits X).length =
      (uniquePairs X).countP (fun p => decide (nextMonth p ∈ uniquePairs X)) := by
  rw [rawSplits_eq_flatMap]
  have key : ∀ l : List (ℕ × ℤ),
      (l.flatMap (emitTuples (uniquePairs X))).length =
        l.countP (fun p => decide (nextMonth p ∈ uniquePairs X)) := by
    intro l
    induction l with
    | nil => rfl
    | cons p l ih =>
        rw [List.flatMap_cons, List.length_append, List.countP_cons, ih,
          length_emitTuples X hall p]
        by_cases h : nextMonth p ∈ uniquePairs X
        · rw [if_pos h, if_pos (by simpa using h)]
          omega
        · rw [if_neg h, if_neg (by simpa using h)]
          omega
  exact key (uniquePairs X)

theorem uniquePairs_months {L : Type} (X : MSTable L) (hv : validMonths X) :
    ∀ q ∈ uniquePairs X, q.1 ≤ 12 := by
  intro q hq
  rw [uniquePairs, List.mem_dedup] at hq
  obtain ⟨r, hr, hrq⟩ := List.mem_map.mp hq
  rw [← hrq]
  exact (hv r hr).2

theorem length_cachedSplits {L : Type} (X : MSTable L) :
    (cachedSplits X).length = (rawSplits X).length :=
  List.length_insertionSort tupLe (rawSplits X)

theorem cachedSplits_sorted {L : Type} (X : MSTable L) :
    List.Sorted tupLe (cachedSplits X) :=
  List.sorted_insertionSort tupLe (rawSplits X)

/-- Every cached tuple is calendar-adjacent: the test pair is the train
month's successor in the same year, or January of the next year after a
December. -/
theorem cachedSplits_shape {L : Type} (X : MSTable L) :
    ∀ t ∈ cachedSplits X,
      t.2.2 = (t.1 + 1, t.2.1) ∨ (t.1 = 12 ∧ t.2.2 = (1, t.2.1 + 1)) := by
  intro t ht
  have ht' : t ∈ rawSplits X := (List.mem_insertionSort tupLe).mp ht
  rw [rawSplits_eq_flatMap] at ht'
  obtain ⟨p, _, hte⟩ := List.mem_flatMap.mp ht'
  unfold emitTuples at hte
  rcases List.mem_append.mp hte with h | h
  · by_cases h1 : (p.1 + 1, p.2) ∈ uniquePairs X
    · rw [if_pos h1] at h
      rw [List.mem_singleton.mp h]
      left
      rfl
    · rw [if_neg h1] at h
      simp at h
  · by_cases h2 : p.1 = 12 ∧ (1, p.2 + 1) ∈ uniquePairs X
    · rw [if_pos h2] at h
      rw [List.mem_singleton.mp h]
      right
      exact ⟨h2.1, rfl⟩
    · rw [if_neg h2] at h
      simp at h

/-- In a cached tuple the train (月, year) pair differs from the test pair. -/
theorem cachedSplits_train_ne_test {L : Type} (X : MSTable L) :
    ∀ t ∈ cachedSplits X, (t.1, t.2.1) ≠ (t.2.2.1, t.2.2.2) := by
  intro t ht hcontra
  have hm : t.1 = t.2.2.1 := congrArg Prod.fst hcontra
  rcases cachedSplits_shape X t ht with h | h
  · have h' : t.2.2.1 = t.1 + 1 := by rw [h]
    omega
  · have h' : t.2.2.1 = 1 := by rw [h.2]
    rw [h', h.1] at hm
    exact absurd hm (by omega)

theorem old_order_getElem {L : Type} (X : MSTable L) (i : ℕ)
    (h : i < (old_order X).length) (h' : i < X.rows.length) :
    (old_order X)[i] = (X.rows[i]).1 := by
  simp [old_order]

theorem indexOf_getElem_of_nodup {L : Type} [DecidableEq L] (l : List L)
    (hnd : l.Nodup) (i : ℕ) (h : i < l.length) :
    l.indexOf l[i] = i := by
  have hmem : l[i] ∈ l := List.getElem_mem h
  have hidx : l.indexOf l[i] < l.length := List.indexOf_lt_length.mpr hmem
  exact (List.Nodup.getElem_inj_iff hnd).mp (List.getElem_indexOf hidx)

/-- Characterisation of the index list produced for one (month, year) mask:
when the original index labels are pairwise distinct, the resolved positions
are exactly the original row positions whose time matches. -/
theorem mem_monthIdx {L : Type} [DecidableEq L] (X : MSTable L)
    (hnd : (old_order X).Nodup) (m : ℕ) (yr : ℤ) (p : ℕ) :
    p ∈ monthIdx X m yr ↔ ∃ hp : p < X.rows.length,
      X.rows[p].2.month = m ∧ X.rows[p].2.year = yr := by
  have hlen : (old_order X).length = X.rows.length := List.length_map _ _
  have hnd' : (List.map Prod.fst X.rows).Nodup := hnd
  unfold monthIdx
  constructor
  · intro hp
    obtain ⟨r, hr, hrp⟩ := List.mem_map.mp hp
    obtain ⟨hrs, hpred⟩ := List.mem_filter.mp hr
    have hrX : r ∈ X.rows := (List.mem_insertionSort rowLe).mp hrs
    obtain ⟨hm, hy⟩ : r.2.month = m ∧ r.2.year = yr := by
      simpa using hpred
    subst hrp
    have hlab : r.1 ∈ old_order X := List.mem_map_of_mem Prod.fst hrX
    have hplt' : (old_order X).indexOf r.1 < (old_order X).length :=
      List.indexOf_lt_length.mpr hlab
    have hplt : map_new2old X r.1 < X.rows.length := by
      unfold map_new2old
      rw [← hlen]
      exact hplt'
    refine ⟨hplt, ?_⟩
    have hplt2 : map_new2old X r.1 < (old_order X).length := hplt'
    have hfst : (X.rows[map_new2old X r.1]).1 = r.1 := by
      rw [← old_order_getElem X _ hplt2 hplt]
      exact List.getElem_indexOf hplt'
    have hrow : X.rows[map_new2old X r.1] = r :=
      List.inj_on_of_nodup_map hnd' (List.getElem_mem hplt) hrX hfst
    rw [hrow]
    exact ⟨hm, hy⟩
  · intro hex
    obtain ⟨hp, hm, hy⟩ := hex
    apply List.mem_map.mpr
    refine ⟨X.rows[p], ?_, ?_⟩
    · apply List.mem_filter.mpr
      refine ⟨(List.mem_insertionSort rowLe).mpr (List.getElem_mem hp), ?_⟩
      simp [hm, hy]
    · have hp' : p < (old_order X).length := by rw [hlen]; exact hp
      unfold map_new2old
      rw [← old_order_getElem X p hp' hp]
      exact indexOf_getElem_of_nodup (old_order X) hnd p hp'

/-- The spec's running example: a datetime row index with months
Nov 2020, Dec 2020, Dec 2020, Jan 2021, Mar 2021 (`time_col = 'index'`, so
each row's label is its timestamp). -/
def exampleTable : MSTable Timestamp :=
  ⟨[(⟨2020, 11, 1⟩, ⟨2020, 11, 1⟩), (⟨2020, 12, 1⟩, ⟨2020, 12, 1⟩),
    (⟨2020, 12, 15⟩, ⟨2020, 12, 15⟩), (⟨2021, 1, 1⟩, ⟨2021, 1, 1⟩),
    (⟨2021, 3, 1⟩, ⟨2021, 3, 1⟩)], true⟩

/-- A table whose first two rows share the index label 7: the
label-to-position dictionary collapses them onto position 0. -/
def dupLabelTable : MSTable ℕ :=
  ⟨[(7, ⟨2020, 11, 1⟩), (7, ⟨2020, 11, 2⟩), (8, ⟨2020, 12, 1⟩)], true⟩

/-! ### Claim C2 -/

/-- **C2.**  For datetime-typed input (with calendar months 1..12),
`get_n_splits` returns the number of distinct (month, year) pairs whose
immediately following calendar month is also present, caches the tuple list
sorted ascending by (train month, train year, test month, test year), and on
the example index [Nov 2020, Dec 2020, Dec 2020, Jan 2021, Mar 2021] returns
2 with cache [(11,2020,12,2020), (12,2020,1,2021)]. -/
theorem C2_split_count_and_order :
    (∀ (L : Type) (α : Type u) (β : Type v) (st : MonthlySplitState)
      (X : MSTable L) (y : α) (groups : β),
      X.isDatetime = true → validMonths X →
      get_n_splits st X y groups =
        Except.ok ((cachedSplits X).length, ⟨some (cachedSplits X)⟩) ∧
      (cachedSplits X).length =
        (uniquePairs X).countP (fun p => decide (nextMonth p ∈ uniquePairs X)) ∧
      List.Sorted tupLe (cachedSplits X)) ∧
    get_n_splits ⟨none⟩ exampleTable (0:ℕ) (0:ℕ) =
      Except.ok (2, ⟨some [(11, 2020, 12, 2020), (12, 2020, 1, 2021)]⟩) := by
  constructor
  · intro L α β st X y groups hdt hv
    refine ⟨?_, ?_, cachedSplits_sorted X⟩
    · unfold get_n_splits
      rw [if_pos hdt]
    · rw [length_cachedSplits, length_rawSplits X (uniquePairs_months X hv)]
  · rfl

/-- Witness for C2 at the example table. -/
theorem C2_split_count_witness :
    validMonths exampleTable ∧
    get_n_splits ⟨none⟩ exampleTable (0:ℕ) (0:ℕ) =
      Except.ok ((cachedSplits exampleTable).length,
        ⟨some (cachedSplits exampleTable)⟩) ∧
    (cachedSplits exampleTable).length =
      (uniquePairs exampleTable).countP
        (fun p => decide (nextMonth p ∈ uniquePairs exampleTable)) ∧
    List.Sorted tupLe (cachedSplits exampleTable) :=
  ⟨by unfold validMonths; decide,
   C2_split_count_and_order.1 Timestamp ℕ ℕ ⟨none⟩ exampleTable 0 0 rfl
     (by unfold validMonths; decide)⟩

/-! ### Claim C7 -/

/-- **C7.**  `get_n_splits` raises exactly when the selected time source is
not datetime-typed. -/
theorem C7_not_datetime_raises (L : Type) {α : Type u} {β : Type v}
    (st : MonthlySplitState) (X : MSTable L) (y : α) (groups : β) :
    (∃ e, get_n_splits st X y groups = Except.error e) ↔
      X.isDatetime = false := by
  unfold get_n_splits
  rcases Bool.eq_false_or_eq_true X.isDatetime with h | h
  · rw [h]
    simp
  · rw [h]
    simp

/-- Witness for C7: a non-datetime time source raises. -/
theorem C7_not_datetime_raises_witness :
    ∃ e, get_n_splits ⟨none⟩ (⟨[], false⟩ : MSTable ℕ) (0:ℕ) (0:ℕ) =
      Except.error e :=
  (C7_not_datetime_raises ℕ ⟨none⟩ ⟨[], false⟩ 0 0).mpr rfl

/-! ### Claim C8 -/

/-- **C8.**  `split` recomputes `splits_` itself, so its output does not
depend on the incoming state at all: running it after a prior `get_n_splits`
call gives the same yielded sequence, and repeated runs agree. -/
theorem C8_split_idempotent (L : Type) {α : Type u} {β : Type v}
    [DecidableEq L] (st st₁ : MonthlySplitState) (X : MSTable L) (y : α)
    (groups : β) (n : ℕ) (hdt : X.isDatetime = true)
    (hcall : get_n_splits st X y groups = Except.ok (n, st₁)) :
    MonthlySplit.split st₁ X y groups = MonthlySplit.split st X y groups ∧
    ∀ s s' : MonthlySplitState,
      MonthlySplit.split s X y groups = MonthlySplit.split s' X y groups :=
  ⟨rfl, fun s s' => rfl⟩

/-- Witness for C8 at the example table. -/
theorem C8_split_idempotent_witness :
    get_n_splits ⟨none⟩ exampleTable (0:ℕ) (0:ℕ) =
      Except.ok (2, ⟨some [(11, 2020, 12, 2020), (12, 2020, 1, 2021)]⟩) ∧
    MonthlySplit.split (⟨some [(11, 2020, 12, 2020), (12, 2020, 1, 2021)]⟩ :
        MonthlySplitState) exampleTable (0:ℕ) (0:ℕ) =
      MonthlySplit.split ⟨none⟩ exampleTable (0:ℕ) (0:ℕ) :=
  ⟨rfl,
   (C8_split_idempotent Timestamp ⟨none⟩
     ⟨some [(11, 2020, 12, 2020), (12, 2020, 1, 2021)]⟩ exampleTable
     0 0 2 rfl rfl).1⟩

/-! ### Claim C9 -/

/-- **C9.**  The output of `split` never depends on `y` or `groups`: two
runs with arbitrary, possibly differently typed, values yield identical
sequences (the arguments exist for interface compatibility only). -/
theorem C9_split_ignores_y_groups (L : Type) {α : Type u} {β : Type v}
    {α' : Type u'} {β' : Type v'} [DecidableEq L] (st : MonthlySplitState)
    (X : MSTable L) (hdt : X.isDatetime = true) (y : α) (y' : α')
    (groups : β) (groups' : β') :
    MonthlySplit.split st X y groups = MonthlySplit.split st X y' groups' :=
  rfl

/-- Witness for C9: numeric versus string/boolean compatibility arguments. -/
theorem C9_split_ignores_witness :
    MonthlySplit.split ⟨none⟩ exampleTable (0:ℕ) (0:ℕ) =
      MonthlySplit.split ⟨none⟩ exampleTable "unused" true :=
  C9_split_ignores_y_groups Timestamp ⟨none⟩ exampleTable rfl 0 "unused" 0 true

/-! ### Claim C3 -/

/-- **C3, amended.**  For datetime-typed input whose index labels are
*pairwise distinct*, each yielded `(train_indices, test_indices)` pair
refers to original (pre-sort) row positions: the i-th pair's train indices
are exactly the original positions whose (month, year) equals the i-th
cached tuple's train month/year, and likewise for test, even though matching
happens after a temporary time-ascending reorder, via the
label-to-original-offset mapping.  (With duplicate index labels the mapping
collapses onto the first offset and the property fails; see the
counterexample.) -/
theorem C3_original_positions (L : Type) {α : Type u} {β : Type v}
    [DecidableEq L] (st : MonthlySplitState) (X : MSTable L) (y : α)
    (groups : β) (hdt : X.isDatetime = true)
    (hnd : (old_order X).Nodup) :
    ∃ res st', MonthlySplit.split st X y groups = Except.ok (res, st') ∧
      st'.splits_ = some (cachedSplits X) ∧
      res.length = (cachedSplits X).length ∧
      ∀ i, i < res.length →
        (∀ p, p ∈ (res.getD i ([], [])).1 ↔ ∃ hp : p < X.rows.length,
          X.rows[p].2.month = ((cachedSplits X).getD i (0, 0, 0, 0)).1 ∧
          X.rows[p].2.year = ((cachedSplits X).getD i (0, 0, 0, 0)).2.1) ∧
        (∀ p, p ∈ (res.getD i ([], [])).2 ↔ ∃ hp : p < X.rows.length,
          X.rows[p].2.month = ((cachedSplits X).getD i (0, 0, 0, 0)).2.2.1 ∧
          X.rows[p].2.year = ((cachedSplits X).getD i (0, 0, 0, 0)).2.2.2) := by
  refine ⟨(cachedSplits X).map (fun t =>
      (monthIdx X t.1 t.2.1, monthIdx X t.2.2.1 t.2.2.2)),
    ⟨some (cachedSplits X)⟩, ?_, rfl, by rw [List.length_map], ?_⟩
  · unfold MonthlySplit.split get_n_splits
    rw [if_pos hdt]
    rfl
  · intro i hi
    have hi' : i < (cachedSplits X).length := by
      rw [List.length_map] at hi
      exact hi
    have hres : ((cachedSplits X).map (fun t =>
        (monthIdx X t.1 t.2.1, monthIdx X t.2.2.1 t.2.2.2))).getD i ([], []) =
        (monthIdx X ((cachedSplits X).getD i (0, 0, 0, 0)).1
          ((cachedSplits X).getD i (0, 0, 0, 0)).2.1,
         monthIdx X ((cachedSplits X).getD i (0, 0, 0, 0)).2.2.1
          ((cachedSplits X).getD i (0, 0, 0, 0)).2.2.2) := by
      rw [List.getD_eq_getElem _ _ (by rw [List.length_map]; exact hi'),
        List.getElem_map, List.getD_eq_getElem _ _ hi']
    rw [hres]
    exact ⟨fun p => mem_monthIdx X hnd _ _ p, fun p => mem_monthIdx X hnd _ _ p⟩

/-- Witness for C3 at the example table (all index labels distinct); the
first conjunct also records the concrete yield: split 0 trains on the
Nov-2020 row (position 0) and tests on the Dec-2020 rows (positions 1, 2),
in original row order. -/
theorem C3_original_positions_witness :
    MonthlySplit.split ⟨none⟩ exampleTable (0:ℕ) (0:ℕ) =
      Except.ok ([([0], [1, 2]), ([1, 2], [3])],
        ⟨some [(11, 2020, 12, 2020), (12, 2020, 1, 2021)]⟩) ∧
    (old_order exampleTable).Nodup ∧
    ∃ res st',
      MonthlySplit.split ⟨none⟩ exampleTable (0:ℕ) (0:ℕ) =
        Except.ok (res, st') ∧
      st'.splits_ = some (cachedSplits exampleTable) := by
  refine ⟨rfl, by decide, ?_⟩
  obtain ⟨res, st', h1, h2, _⟩ :=
    C3_original_positions Timestamp ⟨none⟩ exampleTable 0 0 rfl (by decide)
  exact ⟨res, st', h1, h2⟩

/-- **C3 as stated is false for duplicate index labels.**  In
`dupLabelTable` the two November rows share the label 7, so both resolve to
`old_order.index(7) = 0`: the yielded train list is `[0, 0]`, which misses
original position 1 even though row 1 is a November-2020 row. -/
theorem C3_duplicate_label_counterexample :
    MonthlySplit.split ⟨none⟩ dupLabelTable (0:ℕ) (0:ℕ) =
      Except.ok ([([0, 0], [2])], ⟨some [(11, 2020, 12, 2020)]⟩) ∧
    (dupLabelTable.rows.getD 1 (0, ⟨0, 0, 0⟩)).2.month = 11 ∧
    (dupLabelTable.rows.getD 1 (0, ⟨0, 0, 0⟩)).2.year = 2020 ∧
    (1 : ℕ) ∉ ([0, 0] : List ℕ) :=
  ⟨rfl, rfl, rfl, by decide⟩

/-! ### Claim C10 -/

/-- **C10.**  For datetime-typed input with pairwise distinct index labels,
every yielded pair has disjoint train and test index lists: each cached
tuple's train (month, year) differs from its test (month, year), and a row's
single timestamp cannot match both. -/
theorem C10_disjoint_train_test (L : Type) {α : Type u} {β : Type v}
    [DecidableEq L] (st : MonthlySplitState) (X : MSTable L) (y : α)
    (groups : β) (hdt : X.isDatetime = true) (hnd : (old_order X).Nodup)
    (res : List (List ℕ × List ℕ)) (st' : MonthlySplitState)
    (hres : MonthlySplit.split st X y groups = Except.ok (res, st')) :
    ∀ pair ∈ res, ∀ p : ℕ, ¬(p ∈ pair.1 ∧ p ∈ pair.2) := by
  have hsplit : MonthlySplit.split st X y groups = Except.ok
      ((cachedSplits X).map (fun t =>
        (monthIdx X t.1 t.2.1, monthIdx X t.2.2.1 t.2.2.2)),
       ⟨some (cachedSplits X)⟩) := by
    unfold MonthlySplit.split get_n_splits
    rw [if_pos hdt]
    rfl
  rw [hsplit] at hres
  have hres' : res = (cachedSplits X).map (fun t =>
      (monthIdx X t.1 t.2.1, monthIdx X t.2.2.1 t.2.2.2)) := by
    injection hres with h
    exact (congrArg Prod.fst h).symm
  intro pair hpair p hp
  obtain ⟨hp1, hp2⟩ := hp
  rw [hres'] at hpair
  obtain ⟨t, htmem, hteq⟩ := List.mem_map.mp hpair
  rw [← hteq] at hp1 hp2
  obtain ⟨hplt, hm1, hy1⟩ := (mem_monthIdx X hnd _ _ p).mp hp1
  obtain ⟨hplt2, hm2, hy2⟩ := (mem_monthIdx X hnd _ _ p).mp hp2
  apply cachedSplits_train_ne_test X t htmem
  apply Prod.ext
  · exact hm1.symm.trans hm2
  · exact hy1.symm.trans hy2

/-- Witness for C10 at the example table: both yielded pairs have disjoint
train and test lists. -/
theorem C10_disjoint_train_test_witness :
    (old_order exampleTable).Nodup ∧
    ∀ pair ∈ ([([0], [1, 2]), ([1, 2], [3])] : List (List ℕ × List ℕ)),
      ∀ p : ℕ, ¬(p ∈ pair.1 ∧ p ∈ pair.2) :=
  ⟨by decide,
   C10_disjoint_train_test Timestamp ⟨none⟩ exampleTable (0:ℕ) (0:ℕ) rfl
     (by decide) [([0], [1, 2]), ([1, 2], [3])]
     ⟨some [(11, 2020, 12, 2020), (12, 2020, 1, 2021)]⟩ rfl⟩
